import Mathlib

/-!
Shallow embedding of the marrakech test execution and matrix-reporting
engine (packages/core/src/testing/matchers.ts, PromptWithTests.ts, and
packages/core/src/executors/VercelAIExecutor.ts) together with proofs of
the specified properties of that engine.

JavaScript runtime values reachable by the matcher and runner are embedded
as the inductive `Value` below (JSON-like values plus `undefined`); object
field lists are assumed duplicate-free, as JS objects cannot carry
duplicate keys, and prototype-chain properties are not modelled.  Wall
clock readings (`Date.now()`) and the random per-attempt `execution_id`
are not representable in a pure embedding and the corresponding
`duration` / `execution_id` fields are omitted from the records.  The
behaviour of one asynchronous (test case x executor) dispatch is
abstracted as an oracle (`ExecOutcome`): the `Promise.race` in
`runSingle` either yields the executor's `ExecutionResult`, rejects with
the test-timeout error, or rejects with an executor-thrown error.
-/

namespace Marrakech

/-- JS runtime values reachable by the matcher: JSON values plus `undefined`.
Arrays and objects are finite; object fields are listed in insertion order. -/
inductive Value where
  | null
  | undefined
  | bool (b : Bool)
  | num (n : Int)
  | str (s : String)
  | arr (elems : List Value)
  | obj (fields : List (String × Value))

/-- JS `typeof` on embedded values (`typeof null` is `"object"`). -/
def typeofV : Value → String
  | .null => "object"
  | .undefined => "undefined"
  | .bool _ => "boolean"
  | .num _ => "number"
  | .str _ => "string"
  | .arr _ => "object"
  | .obj _ => "object"

/-- JS loose `x == null`: true exactly for `null` and `undefined`. -/
def isNullish : Value → Bool
  | .null => true
  | .undefined => true
  | _ => false

/-- JS strict equality `===` on embedded values.  Primitives compare by
value; two composite values are conservatively unequal (reference
equality is not representable; callers re-check composites structurally). -/
def strictEq : Value → Value → Bool
  | .null, .null => true
  | .undefined, .undefined => true
  | .bool a, .bool b => a == b
  | .num a, .num b => a == b
  | .str a, .str b => a == b
  | _, _ => false

/-- Index/value pairs of an array under its canonical JS string keys,
starting at index `i`. -/
def arrEntries : Nat → List Value → List (String × Value)
  | _, [] => []
  | i, x :: xs => (toString i, x) :: arrEntries (i + 1) xs

/-- `Object.keys(v)` paired with the corresponding property values:
index entries for arrays, own fields for objects, empty otherwise. -/
def jsEntries : Value → List (String × Value)
  | .arr xs => arrEntries 0 xs
  | .obj fs => fs
  | _ => []

/-- `Object.keys(v)` on embedded values. -/
def jsKeys (v : Value) : List String := (jsEntries v).map (fun e => e.1)

/-- Property access `v[k]`: canonical index keys and `length` for arrays,
own fields for objects, `undefined` otherwise. -/
def jsGet : Value → String → Value
  | .arr xs, k =>
    if k == "length" then .num xs.length
    else
      match (arrEntries 0 xs).find? (fun e => e.1 == k) with
      | some e => e.2
      | none => .undefined
  | .obj fs, k =>
    match fs.find? (fun e => e.1 == k) with
    | some e => e.2
    | none => .undefined
  | _, _ => .undefined

/-- The JS `k in v` test, restricted to own properties (arrays also
expose `length`). -/
def jsHas : Value → String → Bool
  | .arr xs, k => k == "length" || (arrEntries 0 xs).any (fun e => e.1 == k)
  | .obj fs, k => fs.any (fun e => e.1 == k)
  | _, _ => false

/-- `deepEqual` from packages/core/src/testing/matchers.ts: strict
equality for primitives, nullish values equal only to themselves, type
mismatch fails, arrays match pairwise at equal length, and remaining
objects (including an array against a plain object) match when their key
sets coincide and every key's values match recursively.  The source's
`Date`/`RegExp` branches concern values outside the embedded universe. -/
def deepEqual (a b : Value) : Bool :=
  if strictEq a b then true
  else if isNullish a || isNullish b then strictEq a b
  else if typeofV a != typeofV b then false
  else
    match a, b with
    | .arr xs, .arr ys =>
      xs.length == ys.length &&
        (xs.zip ys).attach.all (fun p => deepEqual p.1.1 p.1.2)
    | a, b =>
      if typeofV a == "object" then
        (jsKeys a).length == (jsKeys b).length &&
          (jsEntries a).attach.all
            (fun e => (jsKeys b).contains e.1.1 && deepEqual e.1.2 (jsGet b e.1.1))
      else false
termination_by sizeOf a
decreasing_by
  · rcases p with ⟨⟨x, y⟩, hmem⟩
    have hx : x ∈ xs := (List.of_mem_zip hmem).1
    have hlt := List.sizeOf_lt_of_mem hx
    simp only [Value.arr.sizeOf_spec]
    omega
  · rcases e with ⟨⟨k, v⟩, hmem⟩
    cases a with
    | arr xs =>
      simp only [jsEntries] at hmem
      have hx : ∀ (i : Nat) (l : List Value), (k, v) ∈ arrEntries i l → v ∈ l := by
        intro i l h
        induction l generalizing i with
        | nil => cases h
        | cons y ys ih =>
          rw [arrEntries] at h
          cases h with
          | head => exact List.mem_cons_self _ _
          | tail _ h2 => exact List.mem_cons_of_mem _ (ih _ h2)
      have hlt2 := List.sizeOf_lt_of_mem (hx 0 xs hmem)
      simp only [Value.arr.sizeOf_spec]
      omega
    | obj fs =>
      simp only [jsEntries] at hmem
      have hlt2 := List.sizeOf_lt_of_mem hmem
      simp only [Prod.mk.sizeOf_spec] at hlt2
      simp only [Value.obj.sizeOf_spec]
      omega
    | null => simp [jsEntries] at hmem
    | undefined => simp [jsEntries] at hmem
    | bool b => simp [jsEntries] at hmem
    | num n => simp [jsEntries] at hmem
    | str s => simp [jsEntries] at hmem

/-- `partialEqual` from packages/core/src/testing/matchers.ts: a primitive
`expected` compares by strict equality; a non-object `actual` fails
against an object `expected`; an array `expected` requires every element
to partial-match some element of an array `actual` (computed per element
by `Array.prototype.some`); an object `expected` requires `actual` to
carry every expected key (`key in actual`) with a recursively
partial-matching value. -/
def partialEqual (actual expected : Value) : Bool :=
  if isNullish expected || typeofV expected != "object" then strictEq actual expected
  else if isNullish actual || typeofV actual != "object" then false
  else
    match expected, actual with
    | .arr es, .arr as =>
      es.attach.all (fun e => as.any (fun a => partialEqual a e.1))
    | .arr _, _ => false
    | expected, actual =>
      (jsEntries expected).attach.all
        (fun e => jsHas actual e.1.1 && partialEqual (jsGet actual e.1.1) e.1.2)
termination_by sizeOf expected
decreasing_by
  · rcases e with ⟨x, hmem⟩
    have hlt := List.sizeOf_lt_of_mem hmem
    simp only [Value.arr.sizeOf_spec]
    omega
  · rcases e with ⟨⟨k, v⟩, hmem⟩
    cases expected with
    | arr xs =>
      simp only [jsEntries] at hmem
      have hx : ∀ (i : Nat) (l : List Value), (k, v) ∈ arrEntries i l → v ∈ l := by
        intro i l h
        induction l generalizing i with
        | nil => cases h
        | cons y ys ih =>
          rw [arrEntries] at h
          cases h with
          | head => exact List.mem_cons_self _ _
          | tail _ h2 => exact List.mem_cons_of_mem _ (ih _ h2)
      have hlt2 := List.sizeOf_lt_of_mem (hx 0 xs hmem)
      simp only [Value.arr.sizeOf_spec]
      omega
    | obj fs =>
      simp only [jsEntries] at hmem
      have hlt2 := List.sizeOf_lt_of_mem hmem
      simp only [Prod.mk.sizeOf_spec] at hlt2
      simp only [Value.obj.sizeOf_spec]
      omega
    | null => simp [jsEntries] at hmem
    | undefined => simp [jsEntries] at hmem
    | bool b => simp [jsEntries] at hmem
    | num n => simp [jsEntries] at hmem
    | str s => simp [jsEntries] at hmem

/-- The `try`/`catch` wrapper shared by `match` and `matchPartial` in
matchers.ts: run a comparison that may raise (`Except.error`), return its
Boolean verdict when it completes, and return `false` (a non-match) when
it raises.  The comparator is a parameter so the catch applies to any
exception the runtime could produce during comparison. -/
def matchWith (cmp : Value → Value → Except String Bool) (actual expected : Value) : Bool :=
  match cmp actual expected with
  | .ok r => r
  | .error _ => false

/-- `match` from matchers.ts: `deepEqual` under the exception guard.  On
the embedded (finite, acyclic) values the comparison itself cannot raise,
so the ordinary path returns `deepEqual`'s verdict. -/
def jsMatch (actual expected : Value) : Bool :=
  matchWith (fun a b => .ok (deepEqual a b)) actual expected

/-- `matchPartial` from matchers.ts: `partialEqual` under the exception
guard. -/
def matchPartial (actual expected : Value) : Bool :=
  matchWith (fun a b => .ok (partialEqual a b)) actual expected

/-- JS truthiness test, negated: `!model` in `extractModelName`.  `NaN` is
outside the embedded numbers. -/
def isFalsy : Value → Bool
  | .null => true
  | .undefined => true
  | .bool b => !b
  | .num n => n == 0
  | .str s => s == ""
  | _ => false

/-- JS `String(v)` on embedded values: arrays join their elements with
commas (nullish elements become empty), plain objects print as
`[object Object]`. -/
def jsToString : Value → String
  | .null => "null"
  | .undefined => "undefined"
  | .bool b => if b then "true" else "false"
  | .num n => toString n
  | .str s => s
  | .arr xs =>
    String.intercalate ","
      (xs.attach.map (fun x => if isNullish x.1 then "" else jsToString x.1))
  | .obj _ => "[object Object]"
termination_by v => sizeOf v
decreasing_by
  rcases x with ⟨x, hmem⟩
  have hlt := List.sizeOf_lt_of_mem hmem
  simp only [Value.arr.sizeOf_spec]
  omega

/-- `extractModelName` from PromptWithTests.ts: display label of an
executor's model handle — a falsy handle is `"unknown"`; an object
carrying `modelId` (or else `model`) stringifies that property; otherwise
the handle's own string form, degraded to `"unknown"` when it contains
`"[object"`.  Property lookup models own properties (the source's `in`
also sees prototype-chain keys, which the embedded values do not have). -/
def extractModelName (model : Value) : String :=
  if isFalsy model then "unknown"
  else if typeofV model == "object" && jsHas model "modelId" then
    jsToString (jsGet model "modelId")
  else if typeofV model == "object" && jsHas model "model" then
    jsToString (jsGet model "model")
  else
    let str := jsToString model
    if (str.splitOn "[object").length ≥ 2 then "unknown" else str

/-- `finishReason` of an execution (executors/types.ts union). -/
inductive FinishReason where
  | stop
  | length
  | toolCalls
  | error
  | timeout
  | other (s : String)
deriving DecidableEq

/-- One tool invocation recorded inside an `ExecutionStep`. -/
structure ToolCallRecord where
  toolName : String
  input : Value
  output : Value
  error : Option String

/-- One round of the agentic loop (executors/types.ts). -/
structure ExecutionStep where
  stepNumber : Nat
  toolCalls : Option (List ToolCallRecord)
  text : Option String

/-- Token usage of one execution. -/
structure TokenUsage where
  promptTokens : Nat
  completionTokens : Nat
  totalTokens : Nat

/-- Terminal outcome of one executor invocation (executors/types.ts). -/
structure ExecutionResult where
  output : Value
  steps : List ExecutionStep
  finishReason : FinishReason
  usage : Option TokenUsage
  error : Option String

/-- Executor configuration (executors/types.ts): an opaque model handle
plus generation options. -/
structure ExecutorConfig where
  model : Value
  maxSteps : Option Nat := none
  timeout : Option Nat := none
  temperature : Option Int := none
  maxTokens : Option Nat := none

/-- Metadata attached to an `EvalResult` (testing/types.ts). -/
structure ExecutorMetadata where
  model : String
  config : ExecutorConfig

/-- A declared test case (testing/types.ts).  `timeout` is in
milliseconds; the test-level race uses `timeout ?? 30000`. -/
structure TestCase where
  input : String
  expect : Option Value := none
  name : Option String := none
  timeout : Option Nat := none

/-- Outcome of one (test case x executor) dispatch as observed by
`runSingle`'s `Promise.race`: the executor resolves with an
`ExecutionResult` before the test timer fires, the test timer fires
first (rejecting with `Error("Test timeout")`), or the executor itself
rejects with an error message. -/
inductive ExecOutcome where
  | resolves (result : ExecutionResult)
  | timesOut
  | throws (msg : String)

/-- Result of one (test case x executor) pairing (testing/types.ts).
`duration` (wall clock) and `execution_id` (random unique id) are not
representable in the embedding and are omitted; absence of an optional
field in the source record is `none`. -/
structure EvalResult where
  input : String
  output : Value
  passed : Bool
  error : Option String
  expected : Option Value
  steps : Option (List ExecutionStep)
  executor : Option ExecutorMetadata

/-- The catch block of `createVercelAIExecutor` (VercelAIExecutor.ts):
a rejection message is classified as a timeout exactly when it is the
executor's own timer message. -/
def vercelFinishReason (errorMessage : String) : FinishReason :=
  if errorMessage == "Execution timeout" then .timeout else .error

/-- The `ExecutionResult` that `createVercelAIExecutor` returns from its
catch block: no output, the partial steps recorded so far, and
`finishReason` `"timeout"` for its internal timer or `"error"` for any
other failure.  The executor resolves with this value — it never
rejects — so the suite's `runSingle` sees it through the normal
(non-exception) path. -/
def vercelErrorResult (steps : List ExecutionStep) (errorMessage : String) : ExecutionResult :=
  { output := .null
    steps := steps
    finishReason := vercelFinishReason errorMessage
    usage := none
    error := some errorMessage }

/-- `PromptWithTests.runSingle`: one test case against one executor.
A rejection of the race (test timer or executor throw) is caught and a
failed result synthesized with no `steps` field; a resolved execution
with `finishReason === "error"` fails with the execution's error and
without consulting the matcher; otherwise the matcher runs only when the
case declared an `expect` value. -/
def runSingle (testCase : TestCase) (config : ExecutorConfig)
    (metadata : Option ExecutorMetadata) (outcome : ExecOutcome) : EvalResult :=
  let executorMetadata := metadata.getD
    { model := extractModelName config.model, config := config }
  match outcome with
  | .resolves executionResult =>
    if executionResult.finishReason = .error then
      { input := testCase.input
        output := .null
        passed := false
        error := executionResult.error
        expected := testCase.expect
        steps := some executionResult.steps
        executor := some executorMetadata }
    else
      let passed :=
        match testCase.expect with
        | none => true
        | some e => jsMatch executionResult.output e
      { input := testCase.input
        output := executionResult.output
        passed := passed
        error := none
        expected := testCase.expect
        steps := some executionResult.steps
        executor := some executorMetadata }
  | .timesOut =>
    { input := testCase.input
      output := .null
      passed := false
      error := some "Test timeout"
      expected := testCase.expect
      steps := none
      executor := some executorMetadata }
  | .throws msg =>
    { input := testCase.input
      output := .null
      passed := false
      error := some msg
      expected := testCase.expect
      steps := none
      executor := some executorMetadata }

/-- Per-executor accumulator bucket of `run()`
(`{passed: 0, failed: 0, results: []}`). -/
structure ExecutorBucket where
  passed : Nat
  failed : Nat
  results : List EvalResult

/-- Options accepted by `PromptWithTests.run` (testing/types.ts); the
progress callbacks are side-effect sinks and are not modelled. -/
structure TestRunOptions where
  bail : Bool := false
  executors : Option (List ExecutorConfig) := none

/-- Aggregate result of `run()` (testing/types.ts).  `duration` (wall
clock) is omitted.  `executorResults` is declared optional in the source
type; `none` models the field being absent. -/
structure TestResults where
  total : Nat
  passed : Nat
  failed : Nat
  results : List EvalResult
  executorResults : Option (List (String × ExecutorBucket))

/-- An entry of the `executors` array that `run()` builds: the config
paired with its display label (`extractModelName(config.model)`). -/
structure RunnerExec where
  config : ExecutorConfig
  name : String

/-- `run()`'s construction of its executor entries from the resolved
config list. -/
def mkExecutors (configs : List ExecutorConfig) : List RunnerExec :=
  configs.map (fun c => { config := c, name := extractModelName c.model })

/-- The JS object `executorResults` is embedded as an association list in
key-insertion order; JS objects cannot hold duplicate string keys, and the
initialization loop below keeps keys unique. -/
def bucketKeys (buckets : List (String × ExecutorBucket)) : List String :=
  buckets.map (fun p => p.1)

/-- One step of the initialization loop
`executorResults[name] = {passed: 0, failed: 0, results: []}`: assign an
empty bucket under `name`, overwriting an existing entry or appending a
new key. -/
def initBucket (buckets : List (String × ExecutorBucket)) (name : String) :
    List (String × ExecutorBucket) :=
  if buckets.any (fun p => p.1 == name) then
    buckets.map (fun p => if p.1 == name then (p.1, ⟨0, 0, []⟩) else p)
  else
    buckets ++ [(name, ⟨0, 0, []⟩)]

/-- The whole initialization loop `for (const {name} of executors) ...`. -/
def initBuckets (names : List String) : List (String × ExecutorBucket) :=
  names.foldl initBucket []

/-- Result processing for one executor's result: push onto
`executorResults[name].results` and bump its passed/failed counter.  The
source indexes an existing key (initialization guarantees presence); on a
missing key this is a no-op where the source would throw — the case is
unreachable from `run`. -/
def pushResult (buckets : List (String × ExecutorBucket)) (name : String)
    (r : EvalResult) : List (String × ExecutorBucket) :=
  buckets.map (fun p =>
    if p.1 == name then
      (p.1, { passed := p.2.passed + (if r.passed then 1 else 0)
              failed := p.2.failed + (if r.passed then 0 else 1)
              results := p.2.results ++ [r] })
    else p)

/-- `l.enum` with an explicit start index (the `for (let index = ...)`
loops of `run()`). -/
def enumFrom {α : Type} : Nat → List α → List (Nat × α)
  | _, [] => []
  | i, x :: xs => (i, x) :: enumFrom (i + 1) xs

/-- One row of `run()`: every configured executor runs the test case
concurrently (`Promise.all`); the settled results arrive indexed by
executor position and are paired here with the executor's display label,
in positional order, as `run()`'s processing loop reads them. -/
def rowPairs (outcome : Nat → Nat → ExecOutcome) (caseIdx : Nat) (testCase : TestCase)
    (execs : List RunnerExec) : List (String × EvalResult) :=
  (enumFrom 0 execs).map (fun p =>
    (p.2.name,
     runSingle testCase p.2.config
       (some { model := p.2.name, config := p.2.config }) (outcome caseIdx p.1)))

/-- The per-row result processing loop: each (label, result) pair is
pushed into its executor's bucket. -/
def processRow (buckets : List (String × ExecutorBucket))
    (pairs : List (String × EvalResult)) : List (String × ExecutorBucket) :=
  pairs.foldl (fun acc p => pushResult acc p.1 p.2) buckets

/-- `run()`'s internal accumulation state: the global `allResults` list
and the `executorResults` buckets. -/
structure RunState where
  allResults : List EvalResult
  buckets : List (String × ExecutorBucket)

/-- The sequential case loop of `run()`: rows run in declaration order;
after a row settles, its results are appended globally and per bucket;
with `bail` set, a row containing any failed result stops the loop before
the next row starts (the current row's results are kept). -/
def runLoop (outcome : Nat → Nat → ExecOutcome) (execs : List RunnerExec)
    (bail : Bool) : List (Nat × TestCase) → RunState → RunState
  | [], st => st
  | (idx, testCase) :: rest, st =>
    let pairs := rowPairs outcome idx testCase execs
    let st' : RunState :=
      { allResults := st.allResults ++ pairs.map (fun p => p.2)
        buckets := processRow st.buckets pairs }
    if bail && pairs.any (fun p => !p.2.passed) then st'
    else runLoop outcome execs bail rest st'

/-- The executor-config resolution at the top of `run()`:
`options?.executors ?? this.executorConfigs` (an explicitly supplied
list is used even when empty). -/
def resolveConfigs (ctorConfigs : List ExecutorConfig) (options : TestRunOptions) :
    List ExecutorConfig :=
  options.executors.getD ctorConfigs

/-- The error message thrown when no executor config is available. -/
def noExecutorsMsg : String :=
  "No executors provided. Pass executors in .test() or run() options."

/-- The loop phase of `run()` from its initialized state. -/
def finalState (testCases : List TestCase) (options : TestRunOptions)
    (outcome : Nat → Nat → ExecOutcome) (configsToUse : List ExecutorConfig) : RunState :=
  let execs := mkExecutors configsToUse
  runLoop outcome execs options.bail (enumFrom 0 testCases)
    { allResults := [], buckets := initBuckets (execs.map (fun e => e.name)) }

/-- The final assembly of `TestResults` at the bottom of `run()`:
counters recomputed from the accumulated global list, and
`executorResults` attached unconditionally. -/
def assembleResults (st : RunState) : TestResults :=
  { total := st.allResults.length
    passed := (st.allResults.filter (fun r => r.passed)).length
    failed := (st.allResults.filter (fun r => !r.passed)).length
    results := st.allResults
    executorResults := some st.buckets }

/-- `PromptWithTests.run`: resolve the executor configs (failing fast
when the resolved list is empty), construct executors and labels, run the
case loop, and assemble the aggregate results.  `Except.error` models the
synchronously thrown configuration error — the only exception escaping
`run()`.  Analytics tracking is fire-and-forget and absorbs its own
errors; it does not affect the returned value and is not modelled. -/
def run (testCases : List TestCase) (ctorConfigs : List ExecutorConfig)
    (options : TestRunOptions) (outcome : Nat → Nat → ExecOutcome) :
    Except String TestResults :=
  let configsToUse := resolveConfigs ctorConfigs options
  if configsToUse.isEmpty then .error noExecutorsMsg
  else .ok (assembleResults (finalState testCases options outcome configsToUse))

/-- All results held across the `executorResults` buckets, concatenated in
bucket order (the multiset union of the buckets). -/
def bucketsResults (buckets : List (String × ExecutorBucket)) : List EvalResult :=
  (buckets.map (fun p => p.2.results)).flatten

/-- Sample test case used by the concrete witnesses below. -/
def sampleCase : TestCase := { input := "hi" }

/-- Sample executor config with a falsy model handle (labelled
`"unknown"` by `extractModelName`). -/
def sampleConfig : ExecutorConfig := { model := .null }

/-- Sample dispatch oracle: every (case, executor) dispatch rejects with
an executor-thrown error. -/
def ocThrowBoom : Nat → Nat → ExecOutcome := fun _ _ => .throws "boom"

/-- The `TestResults` value of the sample one-case one-executor run. -/
def sampleRunResult : TestResults :=
  assembleResults (finalState [sampleCase] {} ocThrowBoom [sampleConfig])

/-- The buckets of the sample run. -/
def sampleBuckets : List (String × ExecutorBucket) :=
  (finalState [sampleCase] {} ocThrowBoom [sampleConfig]).buckets

/-- A list splits into the elements satisfying a predicate and those
failing it. -/
theorem length_filter_add_length_filter_not {α : Type} (l : List α) (p : α → Bool) :
    (l.filter p).length + (l.filter (fun a => !p a)).length = l.length := by
  induction l with
  | nil => rfl
  | cons x xs ih => cases hx : p x <;> simp [List.filter_cons, hx] <;> omega

/-- Second components of `enumFrom` entries are list members. -/
theorem mem_of_mem_enumFrom {α : Type} {p : Nat × α} :
    ∀ {i : Nat} {l : List α}, p ∈ enumFrom i l → p.2 ∈ l := by
  intro i l
  induction l generalizing i with
  | nil => intro h; cases h
  | cons x xs ih =>
    intro h
    rw [enumFrom] at h
    rcases List.mem_cons.mp h with h1 | h1
    · subst h1; exact List.mem_cons_self _ _
    · exact List.mem_cons_of_mem _ (ih h1)

/-- `enumFrom` preserves length. -/
theorem length_enumFrom {α : Type} : ∀ (i : Nat) (l : List α),
    (enumFrom i l).length = l.length := by
  intro i l
  induction l generalizing i with
  | nil => rfl
  | cons x xs ih => rw [enumFrom]; simp [ih]

/-- Unfolding of `partialEqual` in the array/array case. -/
theorem partialEqual_arr_arr (as es : List Value) :
    partialEqual (.arr as) (.arr es) =
      es.attach.all (fun e => as.any (fun a => partialEqual a e.1)) := by
  rw [partialEqual]
  simp [isNullish, typeofV, strictEq]

/-- Characterization of array partial matching: every expected element
needs some (not necessarily distinct) witness among the actual elements. -/
theorem partialEqual_arr_mem (as es : List Value) :
    partialEqual (.arr as) (.arr es) = true ↔
      ∀ e ∈ es, ∃ a ∈ as, partialEqual a e = true := by
  rw [partialEqual_arr_arr]
  simp [List.all_eq_true, List.any_eq_true]

/-- Unfolding of `partialEqual` against a primitive number. -/
theorem partialEqual_expected_num (a : Value) (n : Int) :
    partialEqual a (.num n) = strictEq a (.num n) := by
  rw [partialEqual]
  simp [isNullish, typeofV]
  all_goals intros
  all_goals simp_all

/-- C5 counterexample: the expected array `[1, 1]` holds the element `1`
twice, yet it partial-matches the actual array `[1]`, whose single
element serves as the witness for both copies — duplicates do not require
distinct witnesses, contradicting the claim. -/
theorem matchPartial_duplicate_expected_shares_witness :
    matchPartial (.arr [.num 1]) (.arr [.num 1, .num 1]) = true := by
  have h : partialEqual (.arr [.num 1]) (.arr [.num 1, .num 1]) = true := by
    rw [partialEqual_arr_mem]
    intro e he
    refine ⟨.num 1, by simp, ?_⟩
    have he1 : e = Value.num 1 := by
      rcases List.mem_cons.mp he with h1 | h1
      · exact h1
      · simpa using h1
    subst he1
    rw [partialEqual_expected_num]
    simp [strictEq]
  simpa [matchPartial, matchWith] using h

/-- C5 (amended): for partial matching of arrays, every element of the
expected array must partial-match at least one element of the actual
array, existentially and order-independently; each expected element is
checked independently by an existential scan, so duplicate elements in
the expected array may share a single witness element of the actual
array. -/
theorem partialEqual_array_existential (as es : List Value) :
    partialEqual (.arr as) (.arr es) = true ↔
      ∀ e ∈ es, ∃ a ∈ as, partialEqual a e = true :=
  partialEqual_arr_mem as es

/-- Witness instantiating the amended C5 statement at a concrete pair of
arrays. -/
theorem partialEqual_array_existential_witness :
    partialEqual (.arr [.num 2]) (.arr [.num 2]) = true ↔
      ∀ e ∈ [Value.num 2], ∃ a ∈ [Value.num 2], partialEqual a e = true :=
  partialEqual_array_existential [.num 2] [.num 2]

/-- C9: `match` and `matchPartial` are total — the `try`/`catch` wrapper
maps any exception (`Except.error`) raised by the underlying comparison
to `false` and otherwise returns the comparison's verdict, so neither
function ever propagates an exception; on the embedded values the
comparisons complete, and the wrappers return exactly `deepEqual` /
`partialEqual`. -/
theorem match_total_catches :
    (∀ (cmp : Value → Value → Except String Bool) (a e : Value) (msg : String),
        cmp a e = .error msg → matchWith cmp a e = false) ∧
    (∀ (cmp : Value → Value → Except String Bool) (a e : Value) (b : Bool),
        cmp a e = .ok b → matchWith cmp a e = b) ∧
    (∀ a e : Value, jsMatch a e = deepEqual a e) ∧
    (∀ a e : Value, matchPartial a e = partialEqual a e) := by
  refine ⟨?_, ?_, fun a e => rfl, fun a e => rfl⟩
  · intro cmp a e msg h
    simp [matchWith, h]
  · intro cmp a e b h
    simp [matchWith, h]

/-- Witness for C9: a comparator that raises is caught and reported as a
non-match. -/
theorem match_total_catches_witness :
    matchWith (fun _ _ => .error "exception during comparison") .null .null = false :=
  match_total_catches.1 _ .null .null "exception during comparison" rfl

/-- C1 counterexample: the executor's internal timer fires first, so the
executor resolves (it never rejects) with the catch-block result
`finishReason: "timeout"`; the test case has no `expect`, and the
resulting `EvalResult.passed` is `true` — not `false` as claimed, because
`runSingle` special-cases only `finishReason === "error"`. -/
theorem runSingle_reported_timeout_no_expect_passes :
    (runSingle { input := "Weather in Paris?" } { model := .null } none
      (.resolves (vercelErrorResult [] "Execution timeout"))).passed = true := rfl

/-- C1 (amended): `EvalResult.passed` is `false` whenever the resolved
execution has `finishReason == "error"` (regardless of `expect`), and on
the test-level timeout or an executor throw; but a resolved
`finishReason == "timeout"` (as produced by the executor's internal
timer) is not special-cased: the result flows through normal matching, so
with no `expect` supplied, `passed` is `true`. -/
theorem runSingle_failure_passed_semantics
    (tc : TestCase) (cfg : ExecutorConfig) (meta : Option ExecutorMetadata)
    (er : ExecutionResult) (msg : String) :
    (er.finishReason = .error → (runSingle tc cfg meta (.resolves er)).passed = false) ∧
    (runSingle tc cfg meta .timesOut).passed = false ∧
    (runSingle tc cfg meta (.throws msg)).passed = false ∧
    (er.finishReason = .timeout → tc.expect = none →
      (runSingle tc cfg meta (.resolves er)).passed = true) := by
  refine ⟨fun h => ?_, rfl, rfl, fun h1 h2 => ?_⟩
  · simp [runSingle, h]
  · simp [runSingle, h1, h2]

/-- Witness applying the amended C1 statement to a concrete
internally-timed-out execution without `expect`. -/
theorem runSingle_failure_passed_semantics_witness :
    (runSingle { input := "w" } { model := .null } none
      (.resolves (vercelErrorResult [] "Execution timeout"))).passed = true :=
  (runSingle_failure_passed_semantics { input := "w" } { model := .null } none
      (vercelErrorResult [] "Execution timeout") "m").2.2.2 rfl rfl

/-- C6 counterexample: a test case with no `expect` whose executor
resolves reporting `finishReason: "timeout"` yields `passed = true`,
contradicting the claim's "unless the Executor itself reports an error or
timeout" — only `finishReason === "error"` is checked by `runSingle`. -/
theorem runSingle_no_expect_timeout_report_passes :
    (runSingle { input := "q" } { model := .bool false } none
      (.resolves { output := .null
                   steps := [{ stepNumber := 1, toolCalls := none, text := some "t" }]
                   finishReason := .timeout
                   usage := none
                   error := some "Execution timeout" })).passed = true := rfl

/-- C6 (amended): for a completed execution with
`finishReason != "error"`, `passed` is `true` iff no `expect` was given
or the strict matcher accepts `(output, expect)`; in particular a test
case without `expect` passes whenever the executor resolves with any
`finishReason` other than `"error"` — including a reported `"timeout"`. -/
theorem runSingle_passed_iff_match
    (tc : TestCase) (cfg : ExecutorConfig) (meta : Option ExecutorMetadata)
    (er : ExecutionResult) (h : er.finishReason ≠ .error) :
    (runSingle tc cfg meta (.resolves er)).passed =
      (match tc.expect with
       | none => true
       | some e => jsMatch er.output e) ∧
    (tc.expect = none → (runSingle tc cfg meta (.resolves er)).passed = true) := by
  have h1 : (runSingle tc cfg meta (.resolves er)).passed =
      (match tc.expect with
       | none => true
       | some e => jsMatch er.output e) := by
    simp [runSingle, h]
  exact ⟨h1, fun h2 => by rw [h1, h2]⟩

/-- Witness applying the amended C6 statement to a concrete successful
execution of a case without `expect`. -/
theorem runSingle_passed_iff_match_witness :
    (runSingle { input := "s" } { model := .null } none
      (.resolves { output := .str "out", steps := [], finishReason := .stop
                   usage := none, error := none })).passed = true :=
  (runSingle_passed_iff_match { input := "s" } { model := .null } none
      { output := .str "out", steps := [], finishReason := .stop
        usage := none, error := none } (by simp)).2 rfl

/-- C10: when the test-level race rejects — the executor fails to settle
within the test timeout, or throws — `runSingle` synthesizes a failed
`EvalResult` with `passed: false`, `output: null`, the rejection's
message as `error` (`"Test timeout"` on the timeout path), the case's
`expect` copied into `expected`, and no `steps` field at all (any steps
the executor had recorded are absent). -/
theorem runSingle_rejection_shape (tc : TestCase) (cfg : ExecutorConfig)
    (meta : Option ExecutorMetadata) (msg : String) :
    runSingle tc cfg meta .timesOut =
      { input := tc.input, output := .null, passed := false
        error := some "Test timeout", expected := tc.expect, steps := none
        executor := some (meta.getD
          { model := extractModelName cfg.model, config := cfg }) } ∧
    runSingle tc cfg meta (.throws msg) =
      { input := tc.input, output := .null, passed := false
        error := some msg, expected := tc.expect, steps := none
        executor := some (meta.getD
          { model := extractModelName cfg.model, config := cfg }) } :=
  ⟨rfl, rfl⟩

/-- Inversion of `run`: a successful return happens exactly on a
non-empty resolved config list, and the returned value is the assembled
final state. -/
theorem run_ok_iff (testCases : List TestCase) (ctorConfigs : List ExecutorConfig)
    (options : TestRunOptions) (outcome : Nat → Nat → ExecOutcome) (r : TestResults) :
    run testCases ctorConfigs options outcome = .ok r ↔
      ((resolveConfigs ctorConfigs options).isEmpty = false ∧
       r = assembleResults
         (finalState testCases options outcome (resolveConfigs ctorConfigs options))) := by
  unfold run
  cases h : (resolveConfigs ctorConfigs options).isEmpty <;> simp [h]
  exact eq_comm

/-- C2 counterexample: a run with exactly one executor config still
returns `executorResults` (the source attaches the accumulator record
unconditionally), where the claim requires the field to be absent. -/
theorem run_one_executor_attaches_executorResults :
    (run [{ input := "hi" }] [{ model := .null }] {} (fun _ _ => .throws "x")).map
      (fun r => r.executorResults.isSome) = .ok true := rfl

/-- C2 (amended): every completed `run()` returns `executorResults`,
regardless of how many executor configs were supplied — the field is
attached unconditionally, with one accumulator bucket per distinct
executor label. -/
theorem run_executorResults_always_present
    (testCases : List TestCase) (ctorConfigs : List ExecutorConfig)
    (options : TestRunOptions) (outcome : Nat → Nat → ExecOutcome) (r : TestResults)
    (h : run testCases ctorConfigs options outcome = .ok r) :
    r.executorResults.isSome = true := by
  rcases (run_ok_iff testCases ctorConfigs options outcome r).mp h with ⟨-, rfl⟩
  rfl

/-- Witness applying the amended C2 statement to the sample
single-executor run. -/
theorem run_executorResults_always_present_witness :
    sampleRunResult.executorResults.isSome = true :=
  run_executorResults_always_present [sampleCase] [sampleConfig] {} ocThrowBoom
    sampleRunResult rfl

/-- C3: every returned `TestResults` satisfies
`total == passed + failed == results.length`, with `passed`/`failed`
counting exactly the passing/failing elements of `results` (also on runs
cut short by `bail`, since the hypothesis quantifies over every
completed run). -/
theorem run_total_invariant
    (testCases : List TestCase) (ctorConfigs : List ExecutorConfig)
    (options : TestRunOptions) (outcome : Nat → Nat → ExecOutcome) (r : TestResults)
    (h : run testCases ctorConfigs options outcome = .ok r) :
    r.total = r.passed + r.failed ∧
    r.total = r.results.length ∧
    r.passed = (r.results.filter (fun x => x.passed)).length ∧
    r.failed = (r.results.filter (fun x => !x.passed)).length := by
  rcases (run_ok_iff testCases ctorConfigs options outcome r).mp h with ⟨-, rfl⟩
  refine ⟨?_, rfl, rfl, rfl⟩
  exact (length_filter_add_length_filter_not _ _).symm

/-- Witness applying C3 to the sample run. -/
theorem run_total_invariant_witness :
    sampleRunResult.total = sampleRunResult.passed + sampleRunResult.failed ∧
    sampleRunResult.total = sampleRunResult.results.length ∧
    sampleRunResult.passed =
      (sampleRunResult.results.filter (fun x => x.passed)).length ∧
    sampleRunResult.failed =
      (sampleRunResult.results.filter (fun x => !x.passed)).length :=
  run_total_invariant [sampleCase] [sampleConfig] {} ocThrowBoom sampleRunResult rfl

/-- C8 counterexample: `options.executors` supplied as an explicitly
empty list makes `run()` throw the configuration error even though the
suite's constructor config list is non-empty — the nullish-coalescing
resolution never falls back past a present-but-empty override, so the
claimed "iff neither list is non-empty" fails. -/
theorem run_empty_override_throws :
    run [{ input := "hi" }] [{ model := .null }] { executors := some [] }
      (fun _ _ => .timesOut) = .error noExecutorsMsg := rfl

/-- C8 (amended): `run()` throws the configuration error — synchronously,
before any executor is constructed or case dispatched — if and only if
the resolved config list (`options.executors` when supplied, even empty;
otherwise the constructor list) is empty; this is the only error `run()`
propagates, every other invocation returning a successful result. -/
theorem run_error_iff_resolved_empty
    (testCases : List TestCase) (ctorConfigs : List ExecutorConfig)
    (options : TestRunOptions) (outcome : Nat → Nat → ExecOutcome) :
    (run testCases ctorConfigs options outcome = .error noExecutorsMsg ↔
      resolveConfigs ctorConfigs options = []) ∧
    ((run testCases ctorConfigs options outcome).isOk = true ↔
      resolveConfigs ctorConfigs options ≠ []) := by
  unfold run
  cases h : (resolveConfigs ctorConfigs options).isEmpty <;>
    simp [Except.isOk, Except.toBool] <;>
    simp [List.isEmpty_iff] at h <;> simp [h]

/-- Witness applying the amended C8 statement where both the override and
the constructor list are missing. -/
theorem run_error_iff_resolved_empty_witness :
    run [{ input := "hi" }] ([] : List ExecutorConfig) {} (fun _ _ => .timesOut) =
      .error noExecutorsMsg :=
  (run_error_iff_resolved_empty [{ input := "hi" }] [] {} (fun _ _ => .timesOut)).1.mpr rfl

/-- C7: with `bail: true`, a failure anywhere in the first row stops the
loop after that row: the returned results are exactly the first row's
results — one per configured executor, so no executor of the row is cut
off by a sibling's failure — and `failed >= 1`. -/
theorem run_bail_first_row
    (tc0 : TestCase) (rest : List TestCase) (ctorConfigs : List ExecutorConfig)
    (options : TestRunOptions) (outcome : Nat → Nat → ExecOutcome)
    (hbail : options.bail = true)
    (hne : (resolveConfigs ctorConfigs options).isEmpty = false)
    (hfail : (rowPairs outcome 0 tc0
        (mkExecutors (resolveConfigs ctorConfigs options))).any
        (fun p => !p.2.passed) = true) :
    ∃ r, run (tc0 :: rest) ctorConfigs options outcome = .ok r ∧
      r.results = (rowPairs outcome 0 tc0
        (mkExecutors (resolveConfigs ctorConfigs options))).map (fun p => p.2) ∧
      r.results.length = (resolveConfigs ctorConfigs options).length ∧
      1 ≤ r.failed := by
  have hfs : finalState (tc0 :: rest) options outcome (resolveConfigs ctorConfigs options) =
      { allResults := (rowPairs outcome 0 tc0
          (mkExecutors (resolveConfigs ctorConfigs options))).map (fun p => p.2)
        buckets := processRow
          (initBuckets ((mkExecutors (resolveConfigs ctorConfigs options)).map
            (fun e => e.name)))
          (rowPairs outcome 0 tc0 (mkExecutors (resolveConfigs ctorConfigs options))) } := by
    unfold finalState
    rw [show enumFrom 0 (tc0 :: rest) = (0, tc0) :: enumFrom 1 rest from rfl]
    rw [runLoop]
    simp [hbail, hfail]
  refine ⟨assembleResults (finalState (tc0 :: rest) options outcome
      (resolveConfigs ctorConfigs options)),
    (run_ok_iff _ _ _ _ _).mpr ⟨hne, rfl⟩, ?_, ?_, ?_⟩
  · show (finalState _ _ _ _).allResults = _
    rw [hfs]
  · show (finalState _ _ _ _).allResults.length = _
    rw [hfs]
    simp [rowPairs, length_enumFrom, mkExecutors]
  · show 1 ≤ ((finalState _ _ _ _).allResults.filter (fun r => !r.passed)).length
    rw [hfs]
    rcases List.any_eq_true.mp hfail with ⟨p, hp, hfp⟩
    have hmem : p.2 ∈ (rowPairs outcome 0 tc0
        (mkExecutors (resolveConfigs ctorConfigs options))).map (fun p => p.2) :=
      List.mem_map_of_mem _ hp
    have : p.2 ∈ ((rowPairs outcome 0 tc0
        (mkExecutors (resolveConfigs ctorConfigs options))).map (fun p => p.2)).filter
        (fun r => !r.passed) :=
      List.mem_filter.mpr ⟨hmem, hfp⟩
    exact List.length_pos_of_mem this

/-- Witness applying C7 to a concrete two-case suite whose first row
fails under its single executor. -/
theorem run_bail_first_row_witness :
    ∃ r, run [sampleCase, { input := "second" }] [sampleConfig] { bail := true }
        ocThrowBoom = .ok r ∧
      r.results = (rowPairs ocThrowBoom 0 sampleCase
        (mkExecutors (resolveConfigs [sampleConfig] { bail := true }))).map
        (fun p => p.2) ∧
      r.results.length = (resolveConfigs [sampleConfig] { bail := true }).length ∧
      1 ≤ r.failed :=
  run_bail_first_row sampleCase [{ input := "second" }] [sampleConfig]
    { bail := true } ocThrowBoom rfl rfl rfl

/-- Pushing a result never changes the bucket keys. -/
theorem bucketKeys_pushResult (bs : List (String × ExecutorBucket)) (name : String)
    (r : EvalResult) : bucketKeys (pushResult bs name r) = bucketKeys bs := by
  unfold bucketKeys pushResult
  rw [List.map_map]
  apply List.map_congr_left
  intro p _
  by_cases h : p.1 = name <;> simp [h]

/-- Processing a row never changes the bucket keys. -/
theorem bucketKeys_processRow (pairs : List (String × EvalResult)) :
    ∀ bs, bucketKeys (processRow bs pairs) = bucketKeys bs := by
  induction pairs with
  | nil => intro bs; rfl
  | cons p rest ih =>
    intro bs
    show bucketKeys (processRow (pushResult bs p.1 p.2) rest) = _
    rw [ih, bucketKeys_pushResult]

/-- The scan `buckets.any (·.1 == n)` tests key membership. -/
theorem any_beq_iff_mem_bucketKeys (bs : List (String × ExecutorBucket)) (n : String) :
    bs.any (fun p => p.1 == n) = true ↔ n ∈ bucketKeys bs := by
  simp only [List.any_eq_true, bucketKeys, List.mem_map, beq_iff_eq]

/-- Keys after one initialization assignment: an existing key is
overwritten in place, a new key is appended. -/
theorem bucketKeys_initBucket (bs : List (String × ExecutorBucket)) (n : String) :
    bucketKeys (initBucket bs n) =
      if bs.any (fun p => p.1 == n) then bucketKeys bs else bucketKeys bs ++ [n] := by
  unfold initBucket
  split
  · unfold bucketKeys
    rw [List.map_map]
    apply List.map_congr_left
    intro p _
    by_cases h : p.1 = n <;> simp [h]
  · simp [bucketKeys]

/-- The initialization loop keeps bucket keys duplicate-free and covers
every existing key and every initialized name. -/
theorem initBuckets_loop_spec (names : List String) :
    ∀ (bs : List (String × ExecutorBucket)), (bucketKeys bs).Nodup →
      (bucketKeys (names.foldl initBucket bs)).Nodup ∧
      (∀ n, n ∈ bucketKeys bs → n ∈ bucketKeys (names.foldl initBucket bs)) ∧
      (∀ n, n ∈ names → n ∈ bucketKeys (names.foldl initBucket bs)) := by
  induction names with
  | nil =>
    intro bs hnd
    exact ⟨hnd, fun n h => h, fun n h => absurd h (List.not_mem_nil n)⟩
  | cons m ms ih =>
    intro bs hnd
    rw [List.foldl_cons]
    have hkeys := bucketKeys_initBucket bs m
    by_cases hm : bs.any (fun p => p.1 == m) = true
    · rw [if_pos hm] at hkeys
      have h2 := ih (initBucket bs m) (by rw [hkeys]; exact hnd)
      refine ⟨h2.1, fun n hn => h2.2.1 n (by rw [hkeys]; exact hn), fun n hn => ?_⟩
      rcases List.mem_cons.mp hn with h | h
      · subst h
        exact h2.2.1 n (by rw [hkeys]; exact (any_beq_iff_mem_bucketKeys bs n).mp hm)
      · exact h2.2.2 n h
    · have hm' : m ∉ bucketKeys bs := fun hmem =>
        hm ((any_beq_iff_mem_bucketKeys bs m).mpr hmem)
      rw [if_neg hm] at hkeys
      have hnd' : (bucketKeys (initBucket bs m)).Nodup := by
        rw [hkeys]
        simpa [List.nodup_append] using ⟨hnd, hm'⟩
      have h2 := ih (initBucket bs m) hnd'
      refine ⟨h2.1, fun n hn => h2.2.1 n (by rw [hkeys]; exact List.mem_append_left _ hn),
        fun n hn => ?_⟩
      rcases List.mem_cons.mp hn with h | h
      · subst h
        exact h2.2.1 n (by rw [hkeys]; simp)
      · exact h2.2.2 n h

/-- One initialization assignment keeps all buckets empty. -/
theorem initBucket_results_nil (bs : List (String × ExecutorBucket)) (n : String)
    (h : ∀ p ∈ bs, p.2.results = []) : ∀ p ∈ initBucket bs n, p.2.results = [] := by
  unfold initBucket
  split
  · intro p hp
    rcases List.mem_map.mp hp with ⟨q, hq, rfl⟩
    cases hc : q.1 == n <;> simp [hc]
    exact h q hq
  · intro p hp
    rcases List.mem_append.mp hp with h1 | h1
    · exact h p h1
    · simp at h1
      rw [h1]

/-- Every bucket produced by the initialization loop is empty. -/
theorem initBuckets_results_nil (names : List String) :
    ∀ p ∈ initBuckets names, p.2.results = [] := by
  unfold initBuckets
  have haux : ∀ (ns : List String) (bs : List (String × ExecutorBucket)),
      (∀ p ∈ bs, p.2.results = []) → ∀ p ∈ ns.foldl initBucket bs, p.2.results = [] := by
    intro ns
    induction ns with
    | nil => intro bs h; exact h
    | cons m ms ihm =>
      intro bs h
      rw [List.foldl_cons]
      exact ihm _ (initBucket_results_nil bs m h)
  exact haux names [] (fun p hp => absurd hp (List.not_mem_nil p))

/-- A bucket list whose buckets are all empty holds no results. -/
theorem bucketsResults_eq_nil (bs : List (String × ExecutorBucket))
    (h : ∀ p ∈ bs, p.2.results = []) : bucketsResults bs = [] := by
  induction bs with
  | nil => rfl
  | cons p rest ih =>
    show p.2.results ++ bucketsResults rest = []
    rw [h p (List.mem_cons_self _ _), ih (fun q hq => h q (List.mem_cons_of_mem _ hq))]
    rfl

/-- Pushing under a key that is not present is a no-op. -/
theorem pushResult_eq_of_not_mem (bs : List (String × ExecutorBucket)) (name : String)
    (r : EvalResult) (h : name ∉ bucketKeys bs) : pushResult bs name r = bs := by
  induction bs with
  | nil => rfl
  | cons p rest ih =>
    have hp : p.1 ≠ name := fun he => h (by rw [← he]; exact List.mem_cons_self _ _)
    have hrest : name ∉ bucketKeys rest := fun hm => h (List.mem_cons_of_mem _ hm)
    show (if p.1 == name then _ else p) :: pushResult rest name r = p :: rest
    rw [ih hrest]
    simp [hp]

/-- Pushing one result under a present key adds exactly that result to
the combined bucket contents, up to position. -/
theorem bucketsResults_pushResult_perm (bs : List (String × ExecutorBucket))
    (name : String) (r : EvalResult)
    (hmem : name ∈ bucketKeys bs) (hnd : (bucketKeys bs).Nodup) :
    (bucketsResults (pushResult bs name r)).Perm (bucketsResults bs ++ [r]) := by
  induction bs with
  | nil => simp [bucketKeys] at hmem
  | cons p rest ih =>
    have hnd2 := List.nodup_cons.mp hnd
    by_cases hp : p.1 = name
    · have hrestmem : name ∉ bucketKeys rest := by
        rw [← hp]
        exact hnd2.1
      show bucketsResults ((if p.1 == name then
          (p.1, { passed := p.2.passed + (if r.passed then 1 else 0)
                  failed := p.2.failed + (if r.passed then 0 else 1)
                  results := p.2.results ++ [r] })
        else p) :: pushResult rest name r) |>.Perm _
      rw [pushResult_eq_of_not_mem rest name r hrestmem]
      simp only [hp, if_pos (beq_iff_eq.mpr rfl)]
      show ((p.2.results ++ [r]) ++ bucketsResults rest).Perm
        ((p.2.results ++ bucketsResults rest) ++ [r])
      rw [List.append_assoc, List.append_assoc]
      exact List.Perm.append_left _ (List.perm_append_comm)
    · have hmem' : name ∈ bucketKeys rest := by
        rcases List.mem_cons.mp hmem with h | h
        · exact absurd h.symm hp
        · exact h
      show bucketsResults ((if p.1 == name then _ else p) :: pushResult rest name r) |>.Perm _
      have hbeq : (p.1 == name) = false := beq_eq_false_iff_ne.mpr hp
      rw [hbeq]
      show (p.2.results ++ bucketsResults (pushResult rest name r)).Perm
        ((p.2.results ++ bucketsResults rest) ++ [r])
      rw [List.append_assoc]
      exact List.Perm.append_left _ (ih hmem' hnd2.2)

/-- Processing a row appends exactly the row's results to the combined
bucket contents, up to position. -/
theorem bucketsResults_processRow_perm (pairs : List (String × EvalResult)) :
    ∀ (bs : List (String × ExecutorBucket)),
      (∀ p ∈ pairs, p.1 ∈ bucketKeys bs) → (bucketKeys bs).Nodup →
      (bucketsResults (processRow bs pairs)).Perm
        (bucketsResults bs ++ pairs.map (fun p => p.2)) := by
  induction pairs with
  | nil =>
    intro bs _ _
    simp [processRow]
  | cons p rest ih =>
    intro bs hsub hnd
    have h1 := bucketsResults_pushResult_perm bs p.1 p.2
      (hsub p (List.mem_cons_self _ _)) hnd
    have hkeys := bucketKeys_pushResult bs p.1 p.2
    have h2 := ih (pushResult bs p.1 p.2)
      (fun q hq => by rw [hkeys]; exact hsub q (List.mem_cons_of_mem _ hq))
      (by rw [hkeys]; exact hnd)
    show (bucketsResults (processRow (pushResult bs p.1 p.2) rest)).Perm _
    refine h2.trans ?_
    refine (h1.append_right _).trans ?_
    rw [List.append_assoc]
    rfl

/-- The case loop preserves the partition invariant: provided every
executor label is a bucket key, the combined bucket contents stay a
permutation of the global result list. -/
theorem runLoop_partition (outcome : Nat → Nat → ExecOutcome) (execs : List RunnerExec)
    (bail : Bool) (rows : List (Nat × TestCase)) :
    ∀ (st : RunState),
      (∀ e ∈ execs, e.name ∈ bucketKeys st.buckets) →
      (bucketKeys st.buckets).Nodup →
      (bucketsResults st.buckets).Perm st.allResults →
      (bucketsResults (runLoop outcome execs bail rows st).buckets).Perm
        (runLoop outcome execs bail rows st).allResults := by
  induction rows with
  | nil =>
    intro st _ _ hperm
    simpa [runLoop] using hperm
  | cons c rest ih =>
    intro st hsub hnd hperm
    obtain ⟨idx, tc⟩ := c
    have hpairs_keys : ∀ p ∈ rowPairs outcome idx tc execs, p.1 ∈ bucketKeys st.buckets := by
      intro p hp
      rcases List.mem_map.mp hp with ⟨q, hq, rfl⟩
      exact hsub q.2 (mem_of_mem_enumFrom hq)
    have hrow := bucketsResults_processRow_perm (rowPairs outcome idx tc execs)
      st.buckets hpairs_keys hnd
    have hperm' : (bucketsResults (processRow st.buckets
        (rowPairs outcome idx tc execs))).Perm
        (st.allResults ++ (rowPairs outcome idx tc execs).map (fun p => p.2)) :=
      hrow.trans (hperm.append_right _)
    have hkeys := bucketKeys_processRow (rowPairs outcome idx tc execs) st.buckets
    rw [runLoop]
    split
    · exact hperm'
    · apply ih
      · intro e he
        rw [hkeys]
        exact hsub e he
      · rw [hkeys]
        exact hnd
      · exact hperm'

/-- C4: for every completed run, the union of the `executorResults`
buckets equals the top-level `results` list as a multiset — every result
lands in exactly one bucket (configs sharing a display label merge into
one bucket without dropping anything), and no bucket holds a result
absent from the global list. -/
theorem run_executor_partition
    (testCases : List TestCase) (ctorConfigs : List ExecutorConfig)
    (options : TestRunOptions) (outcome : Nat → Nat → ExecOutcome) (r : TestResults)
    (bs : List (String × ExecutorBucket))
    (h : run testCases ctorConfigs options outcome = .ok r)
    (hb : r.executorResults = some bs) :
    ((bs.map (fun p => p.2.results)).flatten).Perm r.results := by
  rcases (run_ok_iff testCases ctorConfigs options outcome r).mp h with ⟨-, rfl⟩
  have hbs : bs = (finalState testCases options outcome
      (resolveConfigs ctorConfigs options)).buckets := by
    have hb' := hb
    simp only [assembleResults, Option.some.injEq] at hb'
    exact hb'.symm
  subst hbs
  show (bucketsResults (finalState testCases options outcome
      (resolveConfigs ctorConfigs options)).buckets).Perm
    (finalState testCases options outcome (resolveConfigs ctorConfigs options)).allResults
  unfold finalState
  have hspec := initBuckets_loop_spec
    ((mkExecutors (resolveConfigs ctorConfigs options)).map (fun e => e.name)) []
    (by simp [bucketKeys])
  apply runLoop_partition
  · intro e he
    exact hspec.2.2 e.name (List.mem_map_of_mem _ he)
  · exact hspec.1
  · rw [bucketsResults_eq_nil _ (initBuckets_results_nil _)]

/-- Witness applying C4 to the sample single-executor run. -/
theorem run_executor_partition_witness :
    ((sampleBuckets.map (fun p => p.2.results)).flatten).Perm sampleRunResult.results :=
  run_executor_partition [sampleCase] [sampleConfig] {} ocThrowBoom
    sampleRunResult sampleBuckets rfl rfl

end Marrakech
